import Mathlib

/-!
Shallow embedding of the celestiaorg/iavl Deep Subtree (DST) code:
the node model, the proof-ingestion path (`fromLeafOp`, `fromInnerOp`,
`addExistenceProof`), the link/key-repair helpers (`updateInnerNodeKey`,
`getHighestKey`, `getLowestKey`), and the mutation engine
(`recursiveSet`, `Set`, `recursiveRemove`, `Remove`) of `deepsubtree.go`.

Byte strings are modelled as `List Nat`.  SHA-256 is modelled by an
injective symbolic hash type `HashB`: a computed hash is the canonical
encoding that the real code feeds to SHA-256, so two modelled hashes are
equal exactly when the corresponding encodings are equal (faithful up to
hash collisions).  Go `nil` slices and pointers are modelled with `Option`
and with an explicit `Node.nil` constructor.
-/

deriving instance DecidableEq for Except

namespace IavlDst

abbrev Bytes := List Nat

/-- Go `bytes.Compare`: lexicographic byte-wise comparison. -/
def bytesCompare : Bytes → Bytes → Ordering
  | [], [] => .eq
  | [], _ :: _ => .lt
  | _ :: _, [] => .gt
  | a :: as, b :: bs =>
    if a < b then .lt else if b < a then .gt else bytesCompare as bs

/-- Symbolic stand-in for a node hash.  `raw` is a 32-byte hash read off
the proof wire; `leafH` is the hash of a leaf node (its canonical hashed
encoding: size, version, key, value hash); `innerH` is the hash of an
inner node (height, size, version, left child hash, right child hash).
Constructor injectivity models collision-freeness of SHA-256. -/
inductive HashB where
  | raw : Bytes → HashB
  | leafH : Int → Int → Bytes → Bytes → HashB
  | innerH : Int → Int → Int → HashB → HashB → HashB
  deriving DecidableEq, Repr

/-- The IAVL node, mirroring the Go `Node` struct fields used by the DST:
`key`, `value`, `subtreeHeight`, `size`, `version`, `leftHash`,
`rightHash`, `leftNode`, `rightNode`, cached `hash`.  `Node.nil` is the
Go nil pointer. -/
inductive Node where
  | nil : Node
  | node (key value : Bytes) (subtreeHeight size version : Int)
      (leftHash rightHash : Option HashB) (leftNode rightNode : Node)
      (hash : Option HashB) : Node
  deriving DecidableEq, Repr

namespace Node

def key : Node → Bytes
  | .nil => []
  | .node k _ _ _ _ _ _ _ _ _ => k

def value : Node → Bytes
  | .nil => []
  | .node _ v _ _ _ _ _ _ _ _ => v

def subtreeHeight : Node → Int
  | .nil => 0
  | .node _ _ h _ _ _ _ _ _ _ => h

def size : Node → Int
  | .nil => 0
  | .node _ _ _ s _ _ _ _ _ _ => s

def version : Node → Int
  | .nil => 0
  | .node _ _ _ _ ver _ _ _ _ _ => ver

def leftHash : Node → Option HashB
  | .nil => none
  | .node _ _ _ _ _ lh _ _ _ _ => lh

def rightHash : Node → Option HashB
  | .nil => none
  | .node _ _ _ _ _ _ rh _ _ _ => rh

def leftNode : Node → Node
  | .nil => .nil
  | .node _ _ _ _ _ _ _ l _ _ => l

def rightNode : Node → Node
  | .nil => .nil
  | .node _ _ _ _ _ _ _ _ r _ => r

def hashf : Node → Option HashB
  | .nil => none
  | .node _ _ _ _ _ _ _ _ _ hs => hs

/-- Go `node.isLeaf()`: a node is a leaf iff its subtree height is 0. -/
def isLeaf : Node → Bool
  | .nil => false
  | .node _ _ h _ _ _ _ _ _ _ => h == 0

end Node

/-- Errors surfaced by the embedded operations (each corresponds to one
`fmt.Errorf` / `errors.New` site of the Go code, or to a spec-modelled
failure of a helper that lives outside the DST file). -/
inductive DstErr where
  | nilValue
  | nilNode
  | innerNoChild
  | innerKeyBad
  | emptyChildHash
  | heightNotZero
  | sizeNotOne
  | varintFail
  | lengthByteBad
  | hashReadFail
  | notFound (k : Bytes)
  | unwitnessed
  | getNodeFail
  deriving DecidableEq, Repr

/-- Modelled from the spec: `newLeaf(key, value, version)` — a fresh leaf
node with height 0 and size 1 (the Go `NewNode` constructor, which lives
outside the DST source file). -/
def NewNode (k v : Bytes) (ver : Int) : Node :=
  .node k v 0 1 ver none none .nil .nil none

/-- The hashed encoding of a node, computed from its fields exactly as
`Node._hash`/`writeHashBytes` do: a leaf hashes its size, version, key
and value hash; an inner node hashes its height, size, version and both
child hash fields, failing (`none`) when a child hash field is missing. -/
def computeHash : Node → Option HashB
  | .nil => none
  | .node k v h s ver lh rh _ _ _ =>
    if h == 0 then some (.leafH s ver k v)
    else
      match lh, rh with
      | some l, some r => some (.innerH h s ver l r)
      | _, _ => none

/-- Go `Node._hash()`: return the cached hash if present, otherwise
compute it from the fields, cache it, and return the updated node.
Fails when an inner node is missing a child hash. -/
def underscoreHash (n : Node) : Except DstErr (HashB × Node) :=
  match n.hashf with
  | some h => .ok (h, n)
  | none =>
    match n with
    | .nil => .error .nilNode
    | .node k v h s ver lh rh l r _ =>
      match computeHash (.node k v h s ver lh rh l r none) with
      | none => .error .emptyChildHash
      | some hv => .ok (hv, .node k v h s ver lh rh l r (some hv))

/-- Go `recomputeHash` (deepsubtree.go, full revision): fill a missing
`leftHash`/`rightHash` from the corresponding in-memory child's `_hash`,
clear the cached hash, and recompute it. -/
def recomputeHash (n : Node) : Except DstErr Node :=
  match n with
  | .nil => .error .nilNode
  | .node k v h s ver lh rh l r _ => do
    let (lh', l') ←
      match lh, l with
      | none, .node kk vv hh ss vr llh rrh ll rr hsh => do
        let (x, lnew) ← underscoreHash (.node kk vv hh ss vr llh rrh ll rr hsh)
        pure (some x, lnew)
      | _, _ => pure (lh, l)
    let (rh', r') ←
      match rh, r with
      | none, .node kk vv hh ss vr llh rrh ll rr hsh => do
        let (x, rnew) ← underscoreHash (.node kk vv hh ss vr llh rrh ll rr hsh)
        pure (some x, rnew)
      | _, _ => pure (rh, r)
    let m : Node := .node k v h s ver lh' rh' l' r' none
    let (_, m') ← underscoreHash m
    pure m'

/-! ## Node store (nodeDB adapter)

The content-addressed store is modelled as an association list keyed by
hash.  `ndbPut` is insert-or-replace-first (a key-value map write), as in
the in-memory database backing the DST's `nodeDB`. -/

abbrev NDB := List (HashB × Node)

def ndbGet : NDB → HashB → Option Node
  | [], _ => none
  | (h', n) :: rest, h => if h' = h then some n else ndbGet rest h

def ndbPut : NDB → HashB → Node → NDB
  | [], h, n => [(h, n)]
  | (h', m) :: rest, h, n =>
    if h' = h then (h, n) :: rest else (h', m) :: ndbPut rest h n

/-- Go `ndb.SaveNode(n)`: store the node keyed by its cached hash.
(`SaveNode` requires the hash to be set; the parser always sets it.) -/
def ndbSave (s : NDB) (n : Node) : NDB :=
  match n.hashf with
  | some h => ndbPut s h n
  | none => s

/-- Go `ndb.Has(n.hash)` specialised to a node's cached hash. -/
def ndbHasNode (s : NDB) (n : Node) : Bool :=
  match n.hashf with
  | some h => (ndbGet s h).isSome
  | none => false

/-! ## Proof wire parsing (`fromLeafOp`, `fromInnerOp`) -/

/-- Go `binary.ReadUvarint`: little-endian base-128 varint with a 10-byte
overflow bound.  `i` is the number of bytes already consumed. -/
def readUvarintAux : List Nat → Nat → Nat → Nat → Option (Nat × List Nat)
  | [], _, _, _ => none
  | b :: rest, x, s, i =>
    if b < 128 then
      if i = 9 ∧ b > 1 then none
      else some (x + b * 2 ^ s, rest)
    else if 9 ≤ i then none
    else readUvarintAux rest (x + (b % 128) * 2 ^ s) (s + 7) (i + 1)

def readUvarint (bs : List Nat) : Option (Nat × List Nat) :=
  readUvarintAux bs 0 0 0

/-- Go `binary.ReadVarint`: read a uvarint and zig-zag decode it. -/
def readVarint (bs : List Nat) : Option (Int × List Nat) :=
  match readUvarint bs with
  | none => none
  | some (ux, rest) =>
    let x : Int := Int.ofNat (ux / 2)
    some (if ux % 2 = 1 then -(x + 1) else x, rest)

/-- Go `fromLeafOp(lop, key, value)`: read height (must be 0), size (must
be 1) and version varints from the leaf-op prefix, build the leaf node and
compute its hash.  Trailing prefix bytes are ignored, as in the code. -/
def fromLeafOp (pre : Bytes) (key value : Bytes) : Except DstErr Node :=
  match readVarint pre with
  | none => .error .varintFail
  | some (height, rest) =>
    if height ≠ 0 then .error .heightNotZero
    else
      match readVarint rest with
      | none => .error .varintFail
      | some (size, rest') =>
        if size ≠ 1 then .error .sizeNotOne
        else
          match readVarint rest' with
          | none => .error .varintFail
          | some (version, _) =>
            match underscoreHash (.node key value 0 size version none none .nil .nil none) with
            | .error e => .error e
            | .ok (_, n) => .ok n

/-- The inner-op prefix after its three varints: a mandatory `0x20` length
byte, then — when bytes remain — a 32-byte left sibling hash followed by
another `0x20`.  Returns the parsed optional left hash. -/
def parseInnerPre (pre : Bytes) : Except DstErr (Int × Int × Int × Option HashB) :=
  match readVarint pre with
  | none => .error .varintFail
  | some (height, r1) =>
    match readVarint r1 with
    | none => .error .varintFail
    | some (size, r2) =>
      match readVarint r2 with
      | none => .error .varintFail
      | some (version, r3) =>
        match r3 with
        | [] => .error .varintFail
        | b :: r4 =>
          if b ≠ 32 then .error .lengthByteBad
          else if r4 = [] then .ok (height, size, version, none)
          else if r4.length < 32 then .error .hashReadFail
          else
            match r4.drop 32 with
            | [] => .error .varintFail
            | b' :: _ =>
              if b' ≠ 32 then .error .lengthByteBad
              else .ok (height, size, version, some (.raw (r4.take 32)))

/-- The inner-op suffix: when non-empty it must start with `0x20` followed
by a 32-byte right sibling hash; trailing bytes are ignored. -/
def parseInnerSuf (suf : Bytes) : Except DstErr (Option HashB) :=
  match suf with
  | [] => .ok none
  | b :: rest =>
    if b ≠ 32 then .error .lengthByteBad
    else if rest.length < 32 then .error .hashReadFail
    else .ok (some (.raw (rest.take 32)))

/-- Go `fromInnerOp(iop, prevHash)`: parse prefix and suffix; if the left
hash is absent install `prevHash` as `leftHash`, otherwise if the right
hash is absent install `prevHash` as `rightHash`; build the inner node and
compute its hash (which fails when a child hash slot is still empty). -/
def fromInnerOp (pre suf : Bytes) (prevHash : Option HashB) : Except DstErr Node :=
  match parseInnerPre pre with
  | .error e => .error e
  | .ok (height, size, version, leftP) =>
    match parseInnerSuf suf with
    | .error e => .error e
    | .ok rightP =>
      let lr : Option HashB × Option HashB :=
        match leftP, rightP with
        | none, r => (prevHash, r)
        | some l, none => (some l, prevHash)
        | some l, some r => (some l, some r)
      match underscoreHash (.node [] [] height size version lr.1 lr.2 .nil .nil none) with
      | .error e => .error e
      | .ok (_, n) => .ok n

/-! ## Hydration (`addExistenceProof`, `AddExistenceProofs`) -/

/-- One ics23 existence proof, reduced to the fields the DST consumes:
the key, the value, the leaf-op prefix, and the inner-op (prefix, suffix)
pairs from leaf to root. -/
structure ExistProof where
  key : Bytes
  value : Bytes
  leafPre : Bytes
  path : List (Bytes × Bytes)
  deriving DecidableEq, Repr

/-- The inner loop of `addExistenceProof`: walk the inner ops outward,
carrying `prevHash`; save each parsed inner node only when the store does
not already have its hash. -/
def addEPLoop : NDB → Option HashB → List (Bytes × Bytes) → NDB × Option DstErr
  | s, _, [] => (s, none)
  | s, prevHash, (pre, suf) :: rest =>
    match fromInnerOp pre suf prevHash with
    | .error e => (s, some e)
    | .ok inner =>
      let s' := if ndbHasNode s inner then s else ndbSave s inner
      addEPLoop s' inner.hashf rest

/-- Go `dst.addExistenceProof(proof)`: parse and save the leaf
unconditionally, then walk the path with `addEPLoop`. -/
def addExistenceProof (s : NDB) (p : ExistProof) : NDB × Option DstErr :=
  match fromLeafOp p.leafPre p.key p.value with
  | .error e => (s, some e)
  | .ok leaf => addEPLoop (ndbSave s leaf) leaf.hashf p.path

/-- Modelled from the spec: `AddExistenceProofs(proofs)` ingests the
proofs in order via `addExistenceProof`, stopping at the first error
(the plural wrapper itself is not among the provided source files). -/
def addExistenceProofs : NDB → List ExistProof → NDB × Option DstErr
  | s, [] => (s, none)
  | s, p :: rest =>
    match addExistenceProof s p with
    | (s', none) => addExistenceProofs s' rest
    | (s', some e) => (s', some e)

/-! ## DST state and spec-modelled helpers of the mutation engine -/

/-- The Deep Subtree state: the in-memory root, the latest saved version,
the node store, the fast-storage flag, and the unsaved fast-node removals
(the slices of `MutableTree` state the DST operations touch). -/
structure DST where
  root : Node
  version : Int
  ndb : NDB
  skipFastStorageUpgrade : Bool
  unsavedRemovals : List Bytes
  deriving DecidableEq, Repr

/-- Modelled from the spec: child resolution (`getLeftNode`/`getRightNode`
of the companion tree, not among the provided source files) — return the
in-memory child when materialized, otherwise look its hash up in the node
store; fail when neither is available. -/
def getChildNode (dst : DST) (child : Node) (childHash : Option HashB) : Except DstErr Node :=
  match child with
  | .nil =>
    match childHash with
    | some h =>
      match ndbGet dst.ndb h with
      | some n => .ok n
      | none => .error .getNodeFail
    | none => .error .getNodeFail
  | n => .ok n

/-- Modelled from the spec: `calcHeightAndSize` (companion tree code, not
among the provided source files) — height is `1 + max(child heights)` and
size is the subtree leaf count, i.e. the sum of the child sizes; children
are resolved via `getChildNode`. -/
def calcHeightAndSize (dst : DST) (n : Node) : Except DstErr Node :=
  match n with
  | .nil => .error .nilNode
  | .node k v _ _ ver lh rh l r hs => do
    let ln ← getChildNode dst l lh
    let rn ← getChildNode dst r rh
    pure (.node k v (1 + max ln.subtreeHeight rn.subtreeHeight)
      (ln.size + rn.size) ver lh rh l r hs)

/-- Modelled from the spec: `clone(version)` (companion tree code) — copy
the node at the new version with the cached hash cleared. -/
def clone (ver : Int) : Node → Node
  | .nil => .nil
  | .node k v h s _ lh rh l r _ => .node k v h s ver lh rh l r none

/-- Modelled from the spec: the balance factor `height(left) − height(right)`
with children resolved via `getChildNode`. -/
def balanceFactor (dst : DST) (n : Node) : Except DstErr Int :=
  match n with
  | .nil => .error .nilNode
  | .node _ _ _ _ _ lh rh l r _ => do
    let ln ← getChildNode dst l lh
    let rn ← getChildNode dst r rh
    pure (ln.subtreeHeight - rn.subtreeHeight)

/-- Modelled from the spec: right rotation — the left child becomes the
subtree root; requires it materialized (else `UnwitnessedSubtree`); the
heights, sizes and hashes of both touched nodes are recomputed. -/
def rotateRight (dst : DST) (n : Node) : Except DstErr Node :=
  match n with
  | .nil => .error .nilNode
  | .node k v h s _ _ rh l r _ => do
    let version := dst.version + 1
    match l with
    | .nil => .error .unwitnessed
    | .node pk pv ph ps _ plh prh pl pr _ => do
      let lower : Node := .node k v h s version prh rh pr r none
      let lower ← calcHeightAndSize dst lower
      let lower ← recomputeHash lower
      let upper : Node := .node pk pv ph ps version plh lower.hashf pl lower none
      let upper ← calcHeightAndSize dst upper
      let upper ← recomputeHash upper
      pure upper

/-- Modelled from the spec: left rotation, mirror of `rotateRight`. -/
def rotateLeft (dst : DST) (n : Node) : Except DstErr Node :=
  match n with
  | .nil => .error .nilNode
  | .node k v h s _ lh _ l r _ => do
    let version := dst.version + 1
    match r with
    | .nil => .error .unwitnessed
    | .node pk pv ph ps _ plh prh pl pr _ => do
      let lower : Node := .node k v h s version lh plh l pl none
      let lower ← calcHeightAndSize dst lower
      let lower ← recomputeHash lower
      let upper : Node := .node pk pv ph ps version lower.hashf prh lower pr none
      let upper ← calcHeightAndSize dst upper
      let upper ← recomputeHash upper
      pure upper

/-- Modelled from the spec: standard AVL rebalance — `balance > 1` with a
non-negative left-child balance right-rotates, otherwise double-rotates;
symmetrically for `balance < −1`; a balanced node is returned unchanged. -/
def dstBalance (dst : DST) (n : Node) : Except DstErr Node := do
  let bal ← balanceFactor dst n
  if 1 < bal then do
    match n with
    | .nil => .error .nilNode
    | .node k v h s ver lh rh l r hs => do
      let ln ← getChildNode dst l lh
      let lb ← balanceFactor dst ln
      if 0 ≤ lb then rotateRight dst (.node k v h s ver lh rh l r hs)
      else do
        let l' ← rotateLeft dst ln
        rotateRight dst (.node k v h s ver l'.hashf rh l' r hs)
  else if bal < -1 then do
    match n with
    | .nil => .error .nilNode
    | .node k v h s ver lh rh l r hs => do
      let rn ← getChildNode dst r rh
      let rb ← balanceFactor dst rn
      if rb ≤ 0 then rotateLeft dst (.node k v h s ver lh rh l r hs)
      else do
        let r' ← rotateRight dst rn
        rotateLeft dst (.node k v h s ver lh r'.hashf l r' hs)
  else pure n

/-! ## The mutation engine (`recursiveSet`, `Set`, `recursiveRemove`, `Remove`) -/

inductive SetBranch where
  | goLeft
  | goRight
  | ambiguous
  deriving DecidableEq, Repr

/-- The descent choice of `recursiveSet`/`recursiveRemove` at an inner
node, transcribing the Go conditions: left when
`leftNode != nil && (compare < 0 || rightNode == nil)`, else right when
`rightNode != nil && (compare >= 0 || leftNode == nil)`, else the
routing error. -/
def dstSetBranch (l r : Node) (cmp : Ordering) : SetBranch :=
  if l ≠ .nil ∧ (cmp = .lt ∨ r = .nil) then .goLeft
  else if r ≠ .nil ∧ (cmp ≠ .lt ∨ l = .nil) then .goRight
  else .ambiguous

/-- Go `dst.recursiveSet(node, key, value)` (deepsubtree.go, full
revision).  Returns Go's `(newSelf, updated, err)` triple, with `newSelf`
modelled as `Node.nil` where Go returns a nil pointer.  At an inner node
the code first bumps the node's version in place, then descends by
`dstSetBranch`; after a non-update descent it recomputes height/size and
rebalances.  The cached hash of the mutated inner node is left stale, as
in the code (the caller recomputes it). -/
def recursiveSet (dst : DST) (node : Node) (key value : Bytes) :
    Node × Bool × Option DstErr :=
  let version := dst.version + 1
  match node with
  | .nil => (.nil, false, some .nilNode)
  | .node k v h sz ver lh rh l r hs =>
    if h == 0 then
      match bytesCompare key k with
      | .lt =>
        (.node k [] 1 2 version none none (NewNode key value version)
          (.node k v 0 sz ver lh rh l r hs) none, false, none)
      | .gt =>
        (.node key [] 1 2 version none none (.node k v 0 sz ver lh rh l r hs)
          (NewNode key value version) none, false, none)
      | .eq => (NewNode key value version, true, none)
    else
      if l = .nil ∧ r = .nil then (.nil, false, some .innerNoChild)
      else
        match dstSetBranch l r (bytesCompare key k) with
        | .goLeft =>
          match recursiveSet dst l key value with
          | (_, updated, some e) => (.nil, updated, some e)
          | (newL, updated, none) =>
            match recomputeHash newL with
            | .error e => (.nil, updated, some e)
            | .ok newL' =>
              let m : Node := .node k v h sz version newL'.hashf rh newL' r hs
              if updated then (m, updated, none)
              else
                match calcHeightAndSize dst m with
                | .error e => (.nil, false, some e)
                | .ok m' =>
                  match dstBalance dst m' with
                  | .error e => (.nil, false, some e)
                  | .ok newNode => (newNode, updated, none)
        | .goRight =>
          match recursiveSet dst r key value with
          | (_, updated, some e) => (.nil, updated, some e)
          | (newR, updated, none) =>
            match recomputeHash newR with
            | .error e => (.nil, updated, some e)
            | .ok newR' =>
              let m : Node := .node k v h sz version lh newR'.hashf l newR' hs
              if updated then (m, updated, none)
              else
                match calcHeightAndSize dst m with
                | .error e => (.nil, false, some e)
                | .ok m' =>
                  match dstBalance dst m' with
                  | .error e => (.nil, false, some e)
                  | .ok newNode => (newNode, updated, none)
        | .ambiguous => (.nil, false, some .innerKeyBad)

/-- Go `dst.Set(key, value)` (deepsubtree.go, full revision): reject a nil
value, assign the result of `recursiveSet` to the root (the assignment
happens before the error check, so a failed descent leaves a nil root),
then recompute the root hash. -/
def dstSet (dst : DST) (key : Bytes) (value : Option Bytes) :
    DST × Bool × Option DstErr :=
  match value with
  | none => (dst, false, some .nilValue)
  | some v =>
    match recursiveSet dst dst.root key v with
    | (newRoot, updated, some e) => ({ dst with root := newRoot }, updated, some e)
    | (newRoot, updated, none) =>
      match recomputeHash newRoot with
      | .error e => ({ dst with root := newRoot }, updated, some e)
      | .ok root' => ({ dst with root := root' }, updated, none)

/-- Go `dst.recursiveRemove(node, key)` (deepsubtree.go, full revision).
Returns Go's `(newHash, newSelf, newKey, err)`: at a leaf, removal is
signalled by `(nil, nil)`; at an inner node a removed child collapses the
node to its other child verbatim, carrying the old routing key upward when
the removal was on the left; otherwise the node is cloned at `version+1`,
the new child installed (a carried key from the right descent replacing
the routing key), and height/size/balance recomputed.  The descent guard
re-reads the left child via `getLeftNode`, which under the guard is the
in-memory `leftNode`. -/
def recursiveRemove (dst : DST) (node : Node) (key : Bytes) :
    Option HashB × Node × Option Bytes × Option DstErr :=
  let version := dst.version + 1
  match node with
  | .nil => (none, .nil, none, some .nilNode)
  | .node k v h sz ver lh rh l r hs =>
    if h == 0 then
      if key = k then (none, .nil, none, none)
      else (hs, .node k v h sz ver lh rh l r hs, none, none)
    else
      if l = .nil ∧ r = .nil then (none, .nil, none, some .innerNoChild)
      else
        match dstSetBranch l r (bytesCompare key k) with
        | .goLeft =>
          match recursiveRemove dst l key with
          | (_, _, _, some e) => (none, .nil, none, some e)
          | (newLeftHash, newLeftNode, newKey, none) =>
            if newLeftHash = none ∧ newLeftNode = .nil then
              (rh, r, some k, none)
            else
              let newNode := clone version (.node k v h sz version lh rh l r hs)
              let newNode :=
                match newNode with
                | .nil => Node.nil
                | .node nk nv nh ns nver _ nrh _ nr nhs =>
                  .node nk nv nh ns nver newLeftHash nrh newLeftNode nr nhs
              match calcHeightAndSize dst newNode with
              | .error e => (none, .nil, none, some e)
              | .ok m =>
                match dstBalance dst m with
                | .error e => (none, .nil, none, some e)
                | .ok b => (b.hashf, b, newKey, none)
        | .goRight =>
          match recursiveRemove dst r key with
          | (_, _, _, some e) => (none, .nil, none, some e)
          | (newRightHash, newRightNode, newKey, none) =>
            if newRightHash = none ∧ newRightNode = .nil then
              (lh, l, none, none)
            else
              let newNode := clone version (.node k v h sz version lh rh l r hs)
              let newNode :=
                match newNode with
                | .nil => Node.nil
                | .node nk nv nh ns nver nlh _ nl _ nhs =>
                  .node (match newKey with | some nk' => nk' | none => nk)
                    nv nh ns nver nlh newRightHash nl newRightNode nhs
              match calcHeightAndSize dst newNode with
              | .error e => (none, .nil, none, some e)
              | .ok m =>
                match dstBalance dst m with
                | .error e => (none, .nil, none, some e)
                | .ok b => (b.hashf, b, none, none)
        | .ambiguous => (none, .nil, none, some (.notFound key))

/-- Go `dst.Remove(key)` (deepsubtree.go, full revision): a nil root
returns `(nil, false, nil)` untouched; a `recursiveRemove` error is
returned with the root unchanged; otherwise the unsaved fast-node removal
is recorded, the root is replaced (reloading it from the store when only
its hash survived the collapse — on a store miss the root is left nil and
the error returned), and `(value, true, nil)` is returned. -/
def dstRemove (dst : DST) (key : Bytes) : DST × Option Bytes × Bool × Option DstErr :=
  match dst.root with
  | .nil => (dst, none, false, none)
  | _ =>
    match recursiveRemove dst dst.root key with
    | (_, _, _, some e) => (dst, none, false, some e)
    | (newRootHash, newRoot, value, none) =>
      let dst1 :=
        if ! dst.skipFastStorageUpgrade then
          { dst with unsavedRemovals := dst.unsavedRemovals ++ [key] }
        else dst
      match newRoot, newRootHash with
      | .nil, some hv =>
        match ndbGet dst.ndb hv with
        | some nd => ({ dst1 with root := nd }, value, true, none)
        | none => ({ dst1 with root := .nil }, none, false, some .getNodeFail)
      | nr, _ => ({ dst1 with root := nr }, value, true, none)

/-! ## Link pass helpers (`getHighestKey`, `getLowestKey`, `updateInnerNodeKey`) -/

/-- Go `node.getHighestKey()`: the highest key among the materialized
leaves of the subtree (an empty intermediate result is treated as
missing, as in the code). -/
def getHighestKey : Node → Bytes
  | .nil => []
  | .node k _ h _ _ _ _ l r _ =>
    if h == 0 then k
    else
      let highest := match r with | .nil => ([] : Bytes) | rr => getHighestKey rr
      match l with
      | .nil => highest
      | ll =>
        let lk := getHighestKey ll
        if highest = [] then lk
        else if bytesCompare lk highest = .gt then lk else highest

/-- Go `node.getLowestKey()`: the lowest key among the materialized
leaves of the subtree. -/
def getLowestKey : Node → Bytes
  | .nil => []
  | .node k _ h _ _ _ _ l r _ =>
    if h == 0 then k
    else
      let lowest := match r with | .nil => ([] : Bytes) | rr => getLowestKey rr
      match l with
      | .nil => lowest
      | ll =>
        let lk := getLowestKey ll
        if lowest = [] then lk
        else if bytesCompare lk lowest = .lt then lk else lowest

/-- Go `node.updateInnerNodeKey()` (the key-repair step `BuildTree`
applies to every stored node): first take the left child's highest key
when the left child is materialized, then overwrite with the right
child's lowest key when the right child is materialized. -/
def updateInnerNodeKey (n : Node) : Node :=
  match n with
  | .nil => .nil
  | .node k v h s ver lh rh l r hs =>
    let k1 := match l with | .nil => k | ll => getHighestKey ll
    let k2 := match r with | .nil => k1 | rr => getLowestKey rr
    .node k2 v h s ver lh rh l r hs

/-! ## Derived notions used to state the claims -/

/-- The unique node shape `fromLeafOp` produces for a given leaf hash:
leaf hashes determine their node (content addressing for parsed leaves). -/
def canonOfLeafHash : HashB → Option Node
  | .leafH s ver k v => some (.node k v 0 s ver none none .nil .nil (some (.leafH s ver k v)))
  | _ => none

/-- Presence of a hash in the store. -/
def hasH (s : NDB) (h : HashB) : Bool :=
  (ndbGet s h).isSome

/-- Whether an accepted inner-op prefix carries a left sibling hash. -/
def innerLeftPresent (pre : Bytes) : Bool :=
  match parseInnerPre pre with
  | .ok (_, _, _, some _) => true
  | _ => false

/-- Whether an accepted inner-op suffix carries a right sibling hash. -/
def innerRightPresent (suf : Bytes) : Bool :=
  match parseInnerSuf suf with
  | .ok (some _) => true
  | _ => false

/-- In-order list of materialized leaf keys of a subtree. -/
def leafKeys : Node → List Bytes
  | .nil => []
  | .node k _ h _ _ _ _ l r _ => if h == 0 then [k] else leafKeys l ++ leafKeys r

/-- Every inner node of the subtree has both children materialized (and
the subtree itself is materialized). -/
def fullyMatB : Node → Bool
  | .nil => false
  | .node _ _ h _ _ _ _ l r _ => if h == 0 then true else fullyMatB l && fullyMatB r

/-- The list is strictly increasing in `bytesCompare` order, pairwise. -/
def pairwiseLtB : List Bytes → Bool
  | [] => true
  | x :: xs => xs.all (fun y => decide (bytesCompare x y = .lt)) && pairwiseLtB xs

/-- All materialized leaf keys are non-empty byte strings. -/
def keysNonemptyB (n : Node) : Bool :=
  (leafKeys n).all (fun k => !k.isEmpty)

/-- A well-formed (sub)tree: fully materialized, strictly increasing
in-order leaf keys, all keys non-empty. -/
def wellFormedB (n : Node) : Bool :=
  fullyMatB n && pairwiseLtB (leafKeys n) && keysNonemptyB n

/-! ## Theorems for the claims -/

/-- Claim C10: for every key, `Remove` on a DST whose root is nil returns
`(nil, false, nil)` — no value, `removed = false`, no error — and leaves
the DST (root, version, node store, flags, unsaved removals) unchanged. -/
theorem remove_nil_root (ver : Int) (s : NDB) (skip : Bool)
    (unsaved : List Bytes) (key : Bytes) :
    dstRemove ⟨.nil, ver, s, skip, unsaved⟩ key =
      (⟨.nil, ver, s, skip, unsaved⟩, none, false, none) := rfl

/-- Claim C3 (code bug): `Remove` on a single-leaf DST storing key `"a"`
(byte 97), called with the absent key `"b"` (byte 98), returns no error
and reports `removed = true` with a nil value, leaving the leaf as root —
it does not fail with a KeyNotFound error and does not report
`removed = false` as the claim states. -/
theorem remove_missing_key_reports_removed :
    dstRemove ⟨.node [97] [1] 0 1 1 none none .nil .nil
        (some (.leafH 1 1 [97] [1])), 0, [], true, []⟩ [98] =
      (⟨.node [97] [1] 0 1 1 none none .nil .nil
        (some (.leafH 1 1 [97] [1])), 0, [], true, []⟩, none, true, none) := by
  decide

/-- Claim C2 (counterexample): on a DST whose root is an inner node with
no materialized child, `Set` returns an error yet replaces the previous
root with nil — the failed mutation does not leave the previous root
intact. -/
theorem set_error_clobbers_root :
    (dstSet ⟨.node [5] [] 2 2 0 none none .nil .nil (some (.raw [7])), 0, [], true, []⟩
        [1] (some [9])).2.2 ≠ none ∧
    (dstSet ⟨.node [5] [] 2 2 0 none none .nil .nil (some (.raw [7])), 0, [], true, []⟩
        [1] (some [9])).1.root = .nil := by
  decide

/-- Every exit of `recursiveSet` either carries no error or returns a nil
`newSelf` (each Go error path returns a nil node pointer). -/
theorem recursiveSet_nil_or_ok (dst : DST) (n : Node) (key value : Bytes) :
    (recursiveSet dst n key value).2.2 = none ∨
    (recursiveSet dst n key value).1 = .nil := by
  cases n with
  | nil => right; rfl
  | node k v h sz ver lh rh l r hs =>
    unfold recursiveSet
    repeat' split
    all_goals try (first | (left; rfl) | (right; rfl))
    all_goals dsimp only
    all_goals split
    all_goals try (first | (left; rfl) | (right; rfl))
    all_goals split
    all_goals first | (left; rfl) | (right; rfl)

/-- Claim C2 (amended): a `Set` call rejected for a nil value and a
`Remove` call whose `recursiveRemove` returns an error leave the DST's
root unchanged; but a `Set` call whose recursive descent returns an error
assigns the descent's nil result to the root before the error check,
losing the previous root. -/
theorem set_remove_error_roots (dst : DST) (key v : Bytes) :
    (dstSet dst key none = (dst, false, some .nilValue)) ∧
    (∀ e, (recursiveSet dst dst.root key v).2.2 = some e →
      (dstSet dst key (some v)).1.root = .nil ∧
      (dstSet dst key (some v)).2.2 = some e) ∧
    (∀ e, dst.root ≠ .nil → (recursiveRemove dst dst.root key).2.2.2 = some e →
      dstRemove dst key = (dst, none, false, some e)) := by
  refine ⟨rfl, ?_, ?_⟩
  · intro e he
    have hnil : (recursiveSet dst dst.root key v).1 = .nil := by
      rcases recursiveSet_nil_or_ok dst dst.root key v with h0 | h0
      · rw [he] at h0; exact absurd h0 (by simp)
      · exact h0
    rcases hrs : recursiveSet dst dst.root key v with ⟨a, b, c⟩
    rw [hrs] at he hnil
    change c = some e at he
    change a = Node.nil at hnil
    subst he
    subst hnil
    simp [dstSet, hrs]
  · intro e hroot he
    rcases hrr : recursiveRemove dst dst.root key with ⟨a, b, c, d⟩
    rw [hrr] at he
    change d = some e at he
    subst he
    rcases hr : dst.root with _ | ⟨k1, v1, h1, s1, ver1, lh1, rh1, l1, r1, hs1⟩
    · exact absurd hr hroot
    · rw [hr] at hrr
      simp [dstRemove, hr, hrr]

/-- Witness for C2 (amended): on a DST whose root is an inner node with
no materialized child — nil-value `Set` and failing `Remove` leave the
root unchanged, while the failing `Set` descent leaves a nil root. -/
theorem set_remove_error_roots_witness :
    (dstSet ⟨.node [5] [] 2 2 0 none none .nil .nil (some (.raw [7])), 0, [], true, []⟩ [1] none =
      (⟨.node [5] [] 2 2 0 none none .nil .nil (some (.raw [7])), 0, [], true, []⟩,
        false, some .nilValue)) ∧
    ((recursiveSet ⟨.node [5] [] 2 2 0 none none .nil .nil (some (.raw [7])), 0, [], true, []⟩
        (DST.root ⟨.node [5] [] 2 2 0 none none .nil .nil (some (.raw [7])), 0, [], true, []⟩)
        [1] [9]).2.2 = some .innerNoChild ∧
      (dstSet ⟨.node [5] [] 2 2 0 none none .nil .nil (some (.raw [7])), 0, [], true, []⟩
        [1] (some [9])).1.root = .nil ∧
      (dstSet ⟨.node [5] [] 2 2 0 none none .nil .nil (some (.raw [7])), 0, [], true, []⟩
        [1] (some [9])).2.2 = some .innerNoChild) ∧
    (DST.root ⟨.node [5] [] 2 2 0 none none .nil .nil (some (.raw [7])), 0, [], true, []⟩ ≠ .nil ∧
      (recursiveRemove ⟨.node [5] [] 2 2 0 none none .nil .nil (some (.raw [7])), 0, [], true, []⟩
        (DST.root ⟨.node [5] [] 2 2 0 none none .nil .nil (some (.raw [7])), 0, [], true, []⟩)
        [1]).2.2.2 = some .innerNoChild ∧
      dstRemove ⟨.node [5] [] 2 2 0 none none .nil .nil (some (.raw [7])), 0, [], true, []⟩ [1] =
        (⟨.node [5] [] 2 2 0 none none .nil .nil (some (.raw [7])), 0, [], true, []⟩,
          none, false, some .innerNoChild)) :=
  ⟨(set_remove_error_roots ⟨.node [5] [] 2 2 0 none none .nil .nil (some (.raw [7])), 0, [], true, []⟩
      [1] [9]).1,
   ⟨by decide,
    (set_remove_error_roots ⟨.node [5] [] 2 2 0 none none .nil .nil (some (.raw [7])), 0, [], true, []⟩
      [1] [9]).2.1 .innerNoChild (by decide)⟩,
   ⟨by decide, by decide,
    (set_remove_error_roots ⟨.node [5] [] 2 2 0 none none .nil .nil (some (.raw [7])), 0, [], true, []⟩
      [1] [9]).2.2 .innerNoChild (by decide) (by decide)⟩⟩

/-- Claim C4: when the `Set` descent reaches a materialized leaf with
stored key k': on an equal key the leaf is replaced by a new leaf with
the given value at version `dst.version + 1` and `updated = true`; on a
smaller key a new inner node with routing key k', height 1, size 2, the
new leaf on the left and the old leaf on the right is returned with
`updated = false`; on a larger key the mirrored inner node with routing
key `key` is returned with `updated = false`. -/
theorem set_leaf_cases (dst : DST) (k' v' : Bytes) (sz ver : Int)
    (lh rh : Option HashB) (ln rn : Node) (hs : Option HashB) (key value : Bytes) :
    (bytesCompare key k' = .eq →
      recursiveSet dst (.node k' v' 0 sz ver lh rh ln rn hs) key value =
        (NewNode key value (dst.version + 1), true, none)) ∧
    (bytesCompare key k' = .lt →
      recursiveSet dst (.node k' v' 0 sz ver lh rh ln rn hs) key value =
        (.node k' [] 1 2 (dst.version + 1) none none
          (NewNode key value (dst.version + 1))
          (.node k' v' 0 sz ver lh rh ln rn hs) none, false, none)) ∧
    (bytesCompare key k' = .gt →
      recursiveSet dst (.node k' v' 0 sz ver lh rh ln rn hs) key value =
        (.node key [] 1 2 (dst.version + 1) none none
          (.node k' v' 0 sz ver lh rh ln rn hs)
          (NewNode key value (dst.version + 1)) none, false, none)) := by
  refine ⟨?_, ?_, ?_⟩ <;> intro hcmp <;> unfold recursiveSet <;> simp [hcmp]

/-- Witness for C4: the three leaf cases evaluated on a concrete DST and
leaf (stored key `[1]`), with an equal, a smaller and a larger key. -/
theorem set_leaf_cases_witness :
    (bytesCompare [1] [1] = .eq ∧
      recursiveSet ⟨.nil, 0, [], true, []⟩ (.node [1] [9] 0 1 1 none none .nil .nil none) [1] [7] =
        (NewNode [1] [7] 1, true, none)) ∧
    (bytesCompare [0] [1] = .lt ∧
      recursiveSet ⟨.nil, 0, [], true, []⟩ (.node [1] [9] 0 1 1 none none .nil .nil none) [0] [7] =
        (.node [1] [] 1 2 1 none none (NewNode [0] [7] 1)
          (.node [1] [9] 0 1 1 none none .nil .nil none) none, false, none)) ∧
    (bytesCompare [2] [1] = .gt ∧
      recursiveSet ⟨.nil, 0, [], true, []⟩ (.node [1] [9] 0 1 1 none none .nil .nil none) [2] [7] =
        (.node [2] [] 1 2 1 none none (.node [1] [9] 0 1 1 none none .nil .nil none)
          (NewNode [2] [7] 1) none, false, none)) :=
  ⟨⟨by decide, (set_leaf_cases ⟨.nil, 0, [], true, []⟩ [1] [9] 1 1 none none .nil .nil none [1] [7]).1 (by decide)⟩,
   ⟨by decide, (set_leaf_cases ⟨.nil, 0, [], true, []⟩ [1] [9] 1 1 none none .nil .nil none [0] [7]).2.1 (by decide)⟩,
   ⟨by decide, (set_leaf_cases ⟨.nil, 0, [], true, []⟩ [1] [9] 1 1 none none .nil .nil none [2] [7]).2.2 (by decide)⟩⟩

/-- Claim C5: at an inner node, `Set` fails when both in-memory children
are nil; otherwise the descent goes left exactly when (the key compares
below the routing key and the left child is materialized) or the right
child is nil, goes right exactly when (the key compares at or above the
routing key and the right child is materialized) or the left child is
nil, and in every remaining case `recursiveSet` fails with the
routing-ambiguity error. -/
theorem set_inner_descent (dst : DST) (k v : Bytes) (hgt sz ver : Int)
    (lh rh : Option HashB) (l r : Node) (hs : Option HashB) (key value : Bytes)
    (hinner : hgt ≠ 0) :
    (recursiveSet dst (.node k v hgt sz ver lh rh .nil .nil hs) key value =
      (.nil, false, some .innerNoChild)) ∧
    (¬(l = .nil ∧ r = .nil) →
      ((dstSetBranch l r (bytesCompare key k) = .goLeft ↔
          ((bytesCompare key k = .lt ∧ l ≠ .nil) ∨ r = .nil)) ∧
       (dstSetBranch l r (bytesCompare key k) = .goRight ↔
          ((bytesCompare key k ≠ .lt ∧ r ≠ .nil) ∨ l = .nil)) ∧
       (dstSetBranch l r (bytesCompare key k) = .ambiguous →
          recursiveSet dst (.node k v hgt sz ver lh rh l r hs) key value =
            (.nil, false, some .innerKeyBad)))) := by
  constructor
  · unfold recursiveSet
    simp [hinner]
  · intro hnn
    refine ⟨?_, ?_, ?_⟩
    · unfold dstSetBranch
      split_ifs with h1 h2 <;> simp_all <;> tauto
    · unfold dstSetBranch
      split_ifs with h1 h2 <;> simp_all <;> tauto
    · intro hamb
      unfold recursiveSet
      simp [hinner, hnn, hamb]

/-- Witness for C5: an inner node of height 1 — with no children `Set`
fails; with a materialized left child and nil right child the branch
selector and the spec conditions agree; the ambiguity case is vacuous. -/
theorem set_inner_descent_witness :
    ((1 : Int) ≠ 0 ∧
      recursiveSet ⟨.nil, 0, [], true, []⟩ (.node [2] [] 1 2 0 none none .nil .nil none) [1] [9] =
        (.nil, false, some .innerNoChild)) ∧
    (¬((Node.node [1] [9] 0 1 1 none none .nil .nil none) = .nil ∧ (Node.nil : Node) = .nil) ∧
      (dstSetBranch (.node [1] [9] 0 1 1 none none .nil .nil none) .nil (bytesCompare [1] [2]) = .goLeft ↔
        ((bytesCompare [1] [2] = .lt ∧ (Node.node [1] [9] 0 1 1 none none .nil .nil none) ≠ .nil) ∨
          (Node.nil : Node) = .nil))) :=
  ⟨⟨by decide, (set_inner_descent ⟨.nil, 0, [], true, []⟩ [2] []
      1 2 0 none none (.node [1] [9] 0 1 1 none none .nil .nil none) .nil none [1] [9] (by decide)).1⟩,
   ⟨by decide, ((set_inner_descent ⟨.nil, 0, [], true, []⟩ [2] []
      1 2 0 none none (.node [1] [9] 0 1 1 none none .nil .nil none) .nil none [1] [9] (by decide)).2
      (by decide)).1⟩⟩

/-- Claim C6: during `Remove`, when the recursive call on the descended
child of an inner node signals removal (nil hash and nil node), the inner
node collapses to its other child, returning that child's hash and node
verbatim; exactly the left-side removal propagates the inner node's old
routing key upward as the carried key (the right-side removal carries
none); and an ancestor that descended right installs a carried key as the
routing key of its rebuilt node before recomputing height, size and
balance. -/
theorem remove_collapse_carry (dst : DST) (k v : Bytes) (hgt sz ver : Int)
    (lh rh : Option HashB) (l r : Node) (hs : Option HashB) (key : Bytes)
    (hinner : hgt ≠ 0) (hnn : ¬(l = .nil ∧ r = .nil)) :
    (dstSetBranch l r (bytesCompare key k) = .goLeft →
      ∀ ck, recursiveRemove dst l key = (none, .nil, ck, none) →
        recursiveRemove dst (.node k v hgt sz ver lh rh l r hs) key =
          (rh, r, some k, none)) ∧
    (dstSetBranch l r (bytesCompare key k) = .goRight →
      ∀ ck, recursiveRemove dst r key = (none, .nil, ck, none) →
        recursiveRemove dst (.node k v hgt sz ver lh rh l r hs) key =
          (lh, l, none, none)) ∧
    (∀ h' n' ck m b, dstSetBranch l r (bytesCompare key k) = .goRight →
      recursiveRemove dst r key = (some h', n', some ck, none) →
      calcHeightAndSize dst (.node ck v hgt sz (dst.version + 1) lh (some h') l n' none) = .ok m →
      dstBalance dst m = .ok b →
      m.key = ck ∧
        recursiveRemove dst (.node k v hgt sz ver lh rh l r hs) key =
          (b.hashf, b, none, none)) := by
  refine ⟨?_, ?_, ?_⟩
  · intro hbr ck hrec
    unfold recursiveRemove
    simp [hinner, hnn, hbr, hrec]
  · intro hbr ck hrec
    unfold recursiveRemove
    simp [hinner, hnn, hbr, hrec]
  · intro h' n' ck m b hbr hrec hcalc hbal
    have hkey : m.key = ck := by
      unfold calcHeightAndSize at hcalc
      simp only [bind, Except.bind] at hcalc
      rcases hg1 : getChildNode dst l lh with e1 | ln <;> rw [hg1] at hcalc
      · simp at hcalc
      · rcases hg2 : getChildNode dst n' (some h') with e2 | rn <;> rw [hg2] at hcalc
        · simp at hcalc
        · simp only [pure, Except.pure, Except.ok.injEq] at hcalc
          rw [← hcalc]
          rfl
    refine ⟨hkey, ?_⟩
    unfold recursiveRemove
    simp [hinner, hnn, hbr, hrec, clone, hcalc, hbal]

/-- Witness for C6: concrete collapses — removing key `[1]` under the
inner node with routing key `[2]` collapses to the right leaf and carries
`[2]`; removing key `[2]` collapses to the left leaf and carries nothing;
removing key `[3]` two levels down makes the root (which descended right)
install the carried key `[4]` as its routing key. -/
theorem remove_collapse_carry_witness :
    (recursiveRemove ⟨.nil, 0, [], true, []⟩
        (.node [2] [] 1 2 1 (some (.leafH 1 1 [1] [9])) (some (.leafH 1 1 [2] [8]))
          (.node [1] [9] 0 1 1 none none .nil .nil (some (.leafH 1 1 [1] [9])))
          (.node [2] [8] 0 1 1 none none .nil .nil (some (.leafH 1 1 [2] [8]))) none) [1] =
      (some (.leafH 1 1 [2] [8]),
        .node [2] [8] 0 1 1 none none .nil .nil (some (.leafH 1 1 [2] [8])), some [2], none)) ∧
    (recursiveRemove ⟨.nil, 0, [], true, []⟩
        (.node [2] [] 1 2 1 (some (.leafH 1 1 [1] [9])) (some (.leafH 1 1 [2] [8]))
          (.node [1] [9] 0 1 1 none none .nil .nil (some (.leafH 1 1 [1] [9])))
          (.node [2] [8] 0 1 1 none none .nil .nil (some (.leafH 1 1 [2] [8]))) none) [2] =
      (some (.leafH 1 1 [1] [9]),
        .node [1] [9] 0 1 1 none none .nil .nil (some (.leafH 1 1 [1] [9])), none, none)) ∧
    ((Node.node [4] [] 1 2 1 (some (.leafH 1 1 [1] [9])) (some (.leafH 1 1 [4] [6]))
        (.node [1] [9] 0 1 1 none none .nil .nil (some (.leafH 1 1 [1] [9])))
        (.node [4] [6] 0 1 1 none none .nil .nil (some (.leafH 1 1 [4] [6]))) none).key = [4] ∧
      recursiveRemove ⟨.nil, 0, [], true, []⟩
        (.node [2] [] 2 3 1 (some (.leafH 1 1 [1] [9])) (some (.raw [42]))
          (.node [1] [9] 0 1 1 none none .nil .nil (some (.leafH 1 1 [1] [9])))
          (.node [4] [] 1 2 1 (some (.leafH 1 1 [3] [7])) (some (.leafH 1 1 [4] [6]))
            (.node [3] [7] 0 1 1 none none .nil .nil (some (.leafH 1 1 [3] [7])))
            (.node [4] [6] 0 1 1 none none .nil .nil (some (.leafH 1 1 [4] [6])))
            (some (.raw [42]))) (some (.raw [43]))) [3] =
      ((Node.node [4] [] 1 2 1 (some (.leafH 1 1 [1] [9])) (some (.leafH 1 1 [4] [6]))
          (.node [1] [9] 0 1 1 none none .nil .nil (some (.leafH 1 1 [1] [9])))
          (.node [4] [6] 0 1 1 none none .nil .nil (some (.leafH 1 1 [4] [6]))) none).hashf,
        .node [4] [] 1 2 1 (some (.leafH 1 1 [1] [9])) (some (.leafH 1 1 [4] [6]))
          (.node [1] [9] 0 1 1 none none .nil .nil (some (.leafH 1 1 [1] [9])))
          (.node [4] [6] 0 1 1 none none .nil .nil (some (.leafH 1 1 [4] [6]))) none,
        none, none)) :=
  ⟨(remove_collapse_carry ⟨.nil, 0, [], true, []⟩ [2] [] 1 2 1
      (some (.leafH 1 1 [1] [9])) (some (.leafH 1 1 [2] [8]))
      (.node [1] [9] 0 1 1 none none .nil .nil (some (.leafH 1 1 [1] [9])))
      (.node [2] [8] 0 1 1 none none .nil .nil (some (.leafH 1 1 [2] [8]))) none [1]
      (by decide) (by decide)).1 (by decide) none (by decide),
   (remove_collapse_carry ⟨.nil, 0, [], true, []⟩ [2] [] 1 2 1
      (some (.leafH 1 1 [1] [9])) (some (.leafH 1 1 [2] [8]))
      (.node [1] [9] 0 1 1 none none .nil .nil (some (.leafH 1 1 [1] [9])))
      (.node [2] [8] 0 1 1 none none .nil .nil (some (.leafH 1 1 [2] [8]))) none [2]
      (by decide) (by decide)).2.1 (by decide) none (by decide),
   (remove_collapse_carry ⟨.nil, 0, [], true, []⟩ [2] [] 2 3 1
      (some (.leafH 1 1 [1] [9])) (some (.raw [42]))
      (.node [1] [9] 0 1 1 none none .nil .nil (some (.leafH 1 1 [1] [9])))
      (.node [4] [] 1 2 1 (some (.leafH 1 1 [3] [7])) (some (.leafH 1 1 [4] [6]))
        (.node [3] [7] 0 1 1 none none .nil .nil (some (.leafH 1 1 [3] [7])))
        (.node [4] [6] 0 1 1 none none .nil .nil (some (.leafH 1 1 [4] [6])))
        (some (.raw [42]))) (some (.raw [43])) [3] (by decide) (by decide)).2.2
      (.leafH 1 1 [4] [6])
      (.node [4] [6] 0 1 1 none none .nil .nil (some (.leafH 1 1 [4] [6])))
      [4]
      (.node [4] [] 1 2 1 (some (.leafH 1 1 [1] [9])) (some (.leafH 1 1 [4] [6]))
        (.node [1] [9] 0 1 1 none none .nil .nil (some (.leafH 1 1 [1] [9])))
        (.node [4] [6] 0 1 1 none none .nil .nil (some (.leafH 1 1 [4] [6]))) none)
      (.node [4] [] 1 2 1 (some (.leafH 1 1 [1] [9])) (some (.leafH 1 1 [4] [6]))
        (.node [1] [9] 0 1 1 none none .nil .nil (some (.leafH 1 1 [1] [9])))
        (.node [4] [6] 0 1 1 none none .nil .nil (some (.leafH 1 1 [4] [6]))) none)
      (by decide) (by decide) (by decide) (by decide)⟩

/-- A fully materialized subtree is not the nil pointer. -/
theorem fullyMat_ne_nil (n : Node) (hf : fullyMatB n = true) : n ≠ .nil := by
  intro he
  rw [he] at hf
  simp [fullyMatB] at hf

/-- Reduction of `leafKeys` on a constructed node. -/
theorem leafKeys_node (k v : Bytes) (h sz ver : Int) (lh rh : Option HashB)
    (l r : Node) (hs : Option HashB) :
    leafKeys (.node k v h sz ver lh rh l r hs) =
      if (h == 0) = true then [k] else leafKeys l ++ leafKeys r := rfl

/-- Reduction of `fullyMatB` on a constructed node. -/
theorem fullyMatB_node (k v : Bytes) (h sz ver : Int) (lh rh : Option HashB)
    (l r : Node) (hs : Option HashB) :
    fullyMatB (.node k v h sz ver lh rh l r hs) =
      if (h == 0) = true then true else fullyMatB l && fullyMatB r := rfl

/-- On a fully materialized subtree with non-empty leaf keys,
`getLowestKey` returns one of the subtree's leaf keys, and it is
non-empty. -/
theorem getLowestKey_mem (n : Node) (hf : fullyMatB n = true)
    (hne : ∀ x ∈ leafKeys n, x ≠ []) :
    getLowestKey n ∈ leafKeys n ∧ getLowestKey n ≠ [] := by
  induction n with
  | nil => simp [fullyMatB] at hf
  | node k v h sz ver lh rh l r hs ihl ihr =>
    by_cases hh : (h == 0) = true
    · have h0 : h = 0 := by simpa using hh
      subst h0
      have hmem : k ∈ leafKeys (.node k v 0 sz ver lh rh l r hs) := by
        rw [leafKeys_node]
        simp
      rw [show getLowestKey (.node k v 0 sz ver lh rh l r hs) = k by unfold getLowestKey; simp]
      exact ⟨hmem, hne k hmem⟩
    · rw [fullyMatB_node, if_neg hh, Bool.and_eq_true] at hf
      have hkeys : leafKeys (.node k v h sz ver lh rh l r hs) = leafKeys l ++ leafKeys r := by
        rw [leafKeys_node, if_neg hh]
      have hnel : ∀ x ∈ leafKeys l, x ≠ [] := by
        intro x hx
        exact hne x (by rw [hkeys]; exact List.mem_append_left _ hx)
      have hner : ∀ x ∈ leafKeys r, x ≠ [] := by
        intro x hx
        exact hne x (by rw [hkeys]; exact List.mem_append_right _ hx)
      obtain ⟨hml, hnl⟩ := ihl hf.1 hnel
      obtain ⟨hmr, hnr⟩ := ihr hf.2 hner
      rw [hkeys]
      have hlnil := fullyMat_ne_nil l hf.1
      have hrnil := fullyMat_ne_nil r hf.2
      rcases l with _ | ⟨lk, lv, lh0, ls0, lver0, llh0, lrh0, ll0, lr0, lhs0⟩
      · exact absurd rfl hlnil
      · rcases r with _ | ⟨rk, rv, rh0, rs0, rver0, rlh0, rrh0, rl0, rr0, rhs0⟩
        · exact absurd rfl hrnil
        · unfold getLowestKey
          rw [if_neg hh]
          dsimp only
          rw [if_neg hnr]
          split
          · exact ⟨List.mem_append_left _ hml, hnl⟩
          · exact ⟨List.mem_append_right _ hmr, hnr⟩

/-- On a fully materialized subtree with non-empty leaf keys,
`getHighestKey` returns one of the subtree's leaf keys, and it is
non-empty. -/
theorem getHighestKey_mem (n : Node) (hf : fullyMatB n = true)
    (hne : ∀ x ∈ leafKeys n, x ≠ []) :
    getHighestKey n ∈ leafKeys n ∧ getHighestKey n ≠ [] := by
  induction n with
  | nil => simp [fullyMatB] at hf
  | node k v h sz ver lh rh l r hs ihl ihr =>
    by_cases hh : (h == 0) = true
    · have h0 : h = 0 := by simpa using hh
      subst h0
      have hmem : k ∈ leafKeys (.node k v 0 sz ver lh rh l r hs) := by
        rw [leafKeys_node]
        simp
      rw [show getHighestKey (.node k v 0 sz ver lh rh l r hs) = k by unfold getHighestKey; simp]
      exact ⟨hmem, hne k hmem⟩
    · rw [fullyMatB_node, if_neg hh, Bool.and_eq_true] at hf
      have hkeys : leafKeys (.node k v h sz ver lh rh l r hs) = leafKeys l ++ leafKeys r := by
        rw [leafKeys_node, if_neg hh]
      have hnel : ∀ x ∈ leafKeys l, x ≠ [] := by
        intro x hx
        exact hne x (by rw [hkeys]; exact List.mem_append_left _ hx)
      have hner : ∀ x ∈ leafKeys r, x ≠ [] := by
        intro x hx
        exact hne x (by rw [hkeys]; exact List.mem_append_right _ hx)
      obtain ⟨hml, hnl⟩ := ihl hf.1 hnel
      obtain ⟨hmr, hnr⟩ := ihr hf.2 hner
      rw [hkeys]
      have hlnil := fullyMat_ne_nil l hf.1
      have hrnil := fullyMat_ne_nil r hf.2
      rcases l with _ | ⟨lk, lv, lh0, ls0, lver0, llh0, lrh0, ll0, lr0, lhs0⟩
      · exact absurd rfl hlnil
      · rcases r with _ | ⟨rk, rv, rh0, rs0, rver0, rlh0, rrh0, rl0, rr0, rhs0⟩
        · exact absurd rfl hrnil
        · unfold getHighestKey
          rw [if_neg hh]
          dsimp only
          rw [if_neg hnr]
          split
          · exact ⟨List.mem_append_left _ hml, hnl⟩
          · exact ⟨List.mem_append_right _ hmr, hnr⟩

/-- Pairwise strict order across an append: elements of the first part
compare below elements of the second part. -/
theorem pairwiseLtB_append_cross (xs ys : List Bytes)
    (hp : pairwiseLtB (xs ++ ys) = true) :
    ∀ x ∈ xs, ∀ y ∈ ys, bytesCompare x y = .lt := by
  induction xs with
  | nil => intro x hx; simp at hx
  | cons a xs ih =>
    simp only [List.cons_append, pairwiseLtB, Bool.and_eq_true, List.all_eq_true] at hp
    intro x hx y hy
    rcases List.mem_cons.mp hx with rfl | hx'
    · exact of_decide_eq_true (hp.1 y (List.mem_append_right _ hy))
    · exact ih hp.2 x hx' y hy

/-- Claim C7 (amended): the key repair on an inner node sets the routing
key to the right child's lowest key when both children are materialized —
and on a well-formed tree this value is strictly greater than (not equal
to) the left child's highest key; an inner node with only the right child
materialized gets that child's lowest key, and one with only the left
child materialized gets that child's highest key. -/
theorem updateInnerNodeKey_spec (k v : Bytes) (hgt sz ver : Int)
    (lh rh : Option HashB) (l r : Node) (hs : Option HashB) (hinner : hgt ≠ 0) :
    (l ≠ .nil → r ≠ .nil →
      (updateInnerNodeKey (.node k v hgt sz ver lh rh l r hs)).key = getLowestKey r) ∧
    (wellFormedB (.node k v hgt sz ver lh rh l r hs) = true →
      bytesCompare (getHighestKey l)
        ((updateInnerNodeKey (.node k v hgt sz ver lh rh l r hs)).key) = .lt) ∧
    (l = .nil → r ≠ .nil →
      (updateInnerNodeKey (.node k v hgt sz ver lh rh l r hs)).key = getLowestKey r) ∧
    (l ≠ .nil → r = .nil →
      (updateInnerNodeKey (.node k v hgt sz ver lh rh l r hs)).key = getHighestKey l) := by
  have hupd : ∀ hl : l ≠ .nil, ∀ hr : r ≠ .nil,
      (updateInnerNodeKey (.node k v hgt sz ver lh rh l r hs)).key = getLowestKey r := by
    intro hl hr
    rcases l with _ | ⟨lk, lv, lh0, ls0, lver0, llh0, lrh0, ll0, lr0, lhs0⟩
    · exact absurd rfl hl
    · rcases r with _ | ⟨rk, rv, rh0, rs0, rver0, rlh0, rrh0, rl0, rr0, rhs0⟩
      · exact absurd rfl hr
      · rfl
  refine ⟨hupd, ?_, ?_, ?_⟩
  · intro hwf
    have hw := hwf
    unfold wellFormedB at hw
    rw [Bool.and_eq_true, Bool.and_eq_true] at hw
    obtain ⟨⟨hfull, hpair⟩, hnempty⟩ := hw
    have hf' : fullyMatB l = true ∧ fullyMatB r = true := by
      rw [fullyMatB_node, if_neg (by simpa using hinner), Bool.and_eq_true] at hfull
      exact hfull
    have hkeys : leafKeys (.node k v hgt sz ver lh rh l r hs) = leafKeys l ++ leafKeys r := by
      rw [leafKeys_node, if_neg (by simpa using hinner)]
    have hne : ∀ x ∈ leafKeys (.node k v hgt sz ver lh rh l r hs), x ≠ [] := by
      unfold keysNonemptyB at hnempty
      intro x hx
      have hx2 := List.all_eq_true.mp hnempty x hx
      simpa using hx2
    have hnel : ∀ x ∈ leafKeys l, x ≠ [] := by
      intro x hx
      exact hne x (by rw [hkeys]; exact List.mem_append_left _ hx)
    have hner : ∀ x ∈ leafKeys r, x ≠ [] := by
      intro x hx
      exact hne x (by rw [hkeys]; exact List.mem_append_right _ hx)
    obtain ⟨hml, _⟩ := getHighestKey_mem l hf'.1 hnel
    obtain ⟨hmr, _⟩ := getLowestKey_mem r hf'.2 hner
    rw [hupd (fullyMat_ne_nil l hf'.1) (fullyMat_ne_nil r hf'.2)]
    rw [hkeys] at hpair
    exact pairwiseLtB_append_cross (leafKeys l) (leafKeys r) hpair _ hml _ hmr
  · intro hl hr
    subst hl
    rcases r with _ | ⟨rk, rv, rh0, rs0, rver0, rlh0, rrh0, rl0, rr0, rhs0⟩
    · exact absurd rfl hr
    · rfl
  · intro hl hr
    subst hr
    rcases l with _ | ⟨lk, lv, lh0, ls0, lver0, llh0, lrh0, ll0, lr0, lhs0⟩
    · exact absurd rfl hl
    · rfl

/-- Claim C7 (counterexample): a well-formed two-leaf tree (keys `"a"`,
`"b"`) on which the repaired routing key — the right child's lowest key
`"b"` — does not equal the left child's highest key `"a"`. -/
theorem updateInnerNodeKey_not_left_highest :
    wellFormedB (.node [99] [] 1 2 1 none none
      (.node [97] [1] 0 1 1 none none .nil .nil none)
      (.node [98] [2] 0 1 1 none none .nil .nil none) none) = true ∧
    (updateInnerNodeKey (.node [99] [] 1 2 1 none none
      (.node [97] [1] 0 1 1 none none .nil .nil none)
      (.node [98] [2] 0 1 1 none none .nil .nil none) none)).key ≠
      getHighestKey (.node [97] [1] 0 1 1 none none .nil .nil none) := by
  decide

/-- Witness for C7: the two-leaf tree with keys `"a"`, `"b"` — both
children materialized gives the routing key `"b"` (right child's lowest
key), strictly above the left child's highest key `"a"`; one-sided trees
get the corresponding child's extreme key. -/
theorem updateInnerNodeKey_spec_witness :
    ((updateInnerNodeKey (.node [99] [] 1 2 1 none none
        (.node [97] [1] 0 1 1 none none .nil .nil none)
        (.node [98] [2] 0 1 1 none none .nil .nil none) none)).key =
      getLowestKey (.node [98] [2] 0 1 1 none none .nil .nil none)) ∧
    (bytesCompare (getHighestKey (.node [97] [1] 0 1 1 none none .nil .nil none))
      ((updateInnerNodeKey (.node [99] [] 1 2 1 none none
        (.node [97] [1] 0 1 1 none none .nil .nil none)
        (.node [98] [2] 0 1 1 none none .nil .nil none) none)).key) = .lt) ∧
    ((updateInnerNodeKey (.node [99] [] 1 2 1 none none .nil
        (.node [98] [2] 0 1 1 none none .nil .nil none) none)).key =
      getLowestKey (.node [98] [2] 0 1 1 none none .nil .nil none)) ∧
    ((updateInnerNodeKey (.node [99] [] 1 2 1 none none
        (.node [97] [1] 0 1 1 none none .nil .nil none) .nil none)).key =
      getHighestKey (.node [97] [1] 0 1 1 none none .nil .nil none)) :=
  ⟨(updateInnerNodeKey_spec [99] [] 1 2 1 none none
      (.node [97] [1] 0 1 1 none none .nil .nil none)
      (.node [98] [2] 0 1 1 none none .nil .nil none) none (by decide)).1
      (by decide) (by decide),
   (updateInnerNodeKey_spec [99] [] 1 2 1 none none
      (.node [97] [1] 0 1 1 none none .nil .nil none)
      (.node [98] [2] 0 1 1 none none .nil .nil none) none (by decide)).2.1
      (by decide),
   (updateInnerNodeKey_spec [99] [] 1 2 1 none none .nil
      (.node [98] [2] 0 1 1 none none .nil .nil none) none (by decide)).2.2.1
      (by decide) (by decide),
   (updateInnerNodeKey_spec [99] [] 1 2 1 none none
      (.node [97] [1] 0 1 1 none none .nil .nil none) .nil none (by decide)).2.2.2
      (by decide) (by decide)⟩

/-- Claim C8 (amended): the proof parser does not enforce that exactly
one sibling hash is present per inner op — it also accepts ops carrying
both.  For every accepted op it assigns the running hash to the absent
side: when the left sibling hash is absent, `leftHash := prevHash`;
otherwise, when the right sibling hash is absent, `rightHash := prevHash`
— in both cases before the inner node's hash is computed. -/
theorem fromInnerOp_prevHash_assignment (pre suf : Bytes) (ph : HashB) (n : Node)
    (hok : fromInnerOp pre suf (some ph) = .ok n) :
    (innerLeftPresent pre = false → n.leftHash = some ph) ∧
    (innerLeftPresent pre = true → innerRightPresent suf = false →
      n.rightHash = some ph) := by
  unfold fromInnerOp at hok
  rcases hp : parseInnerPre pre with e | ⟨height, size, version, leftP⟩ <;> rw [hp] at hok
  · simp at hok
  · rcases hsuf : parseInnerSuf suf with e | rightP <;> rw [hsuf] at hok
    · simp at hok
    · constructor
      · intro hlp
        have hlnone : leftP = none := by
          rcases leftP with _ | lv
          · rfl
          · simp [innerLeftPresent, hp] at hlp
        subst hlnone
        dsimp only at hok
        rcases hc : computeHash (.node [] [] height size version (some ph) rightP .nil .nil none)
            with _ | hv <;> simp [underscoreHash, Node.hashf, hc] at hok
        rw [← hok]
        rfl
      · intro hlp hrp
        have hlsome : ∃ lv, leftP = some lv := by
          rcases leftP with _ | lv
          · simp [innerLeftPresent, hp] at hlp
          · exact ⟨lv, rfl⟩
        obtain ⟨lv, rfl⟩ := hlsome
        have hrnone : rightP = none := by
          rcases rightP with _ | rv
          · rfl
          · simp [innerRightPresent, hsuf] at hrp
        subst hrnone
        dsimp only at hok
        rcases hc : computeHash (.node [] [] height size version (some lv) (some ph) .nil .nil none)
            with _ | hv <;> simp [underscoreHash, Node.hashf, hc] at hok
        rw [← hok]
        rfl

/-- Claim C8 (counterexample): an inner op whose prefix carries a left
sibling hash and whose suffix carries a right sibling hash — both sides
present — is accepted by `fromInnerOp`, so it is not the case that every
accepted op has exactly one sibling hash present. -/
theorem fromInnerOp_accepts_both_present :
    fromInnerOp ([2, 4, 6, 32] ++ List.replicate 32 0 ++ [32])
        ([32] ++ List.replicate 32 1) (some (.raw (List.replicate 32 2))) =
      .ok (.node [] [] 1 2 3 (some (.raw (List.replicate 32 0)))
        (some (.raw (List.replicate 32 1))) .nil .nil
        (some (.innerH 1 2 3 (.raw (List.replicate 32 0)) (.raw (List.replicate 32 1))))) ∧
    innerLeftPresent ([2, 4, 6, 32] ++ List.replicate 32 0 ++ [32]) = true ∧
    innerRightPresent ([32] ++ List.replicate 32 1) = true := by
  decide

/-- Witness for C8: a left-absent op (`prefix = varints ++ 0x20`, suffix
carrying a right hash) parsed with a concrete running hash receives that
hash as its `leftHash`; a right-absent op receives it as `rightHash`. -/
theorem fromInnerOp_prevHash_assignment_witness :
    (innerLeftPresent [2, 4, 6, 32] = false ∧
      (Node.node [] [] 1 2 3 (some (.raw (List.replicate 32 9)))
        (some (.raw (List.replicate 32 1))) .nil .nil
        (some (.innerH 1 2 3 (.raw (List.replicate 32 9))
          (.raw (List.replicate 32 1))))).leftHash = some (.raw (List.replicate 32 9))) ∧
    (innerLeftPresent ([2, 4, 6, 32] ++ List.replicate 32 0 ++ [32]) = true ∧
      innerRightPresent [] = false ∧
      (Node.node [] [] 1 2 3 (some (.raw (List.replicate 32 0)))
        (some (.raw (List.replicate 32 9))) .nil .nil
        (some (.innerH 1 2 3 (.raw (List.replicate 32 0))
          (.raw (List.replicate 32 9))))).rightHash = some (.raw (List.replicate 32 9))) :=
  ⟨⟨by decide,
    (fromInnerOp_prevHash_assignment [2, 4, 6, 32] ([32] ++ List.replicate 32 1)
      (.raw (List.replicate 32 9))
      (.node [] [] 1 2 3 (some (.raw (List.replicate 32 9)))
        (some (.raw (List.replicate 32 1))) .nil .nil
        (some (.innerH 1 2 3 (.raw (List.replicate 32 9)) (.raw (List.replicate 32 1)))))
      (by decide)).1 (by decide)⟩,
   ⟨by decide, by decide,
    (fromInnerOp_prevHash_assignment ([2, 4, 6, 32] ++ List.replicate 32 0 ++ [32]) []
      (.raw (List.replicate 32 9))
      (.node [] [] 1 2 3 (some (.raw (List.replicate 32 0)))
        (some (.raw (List.replicate 32 9))) .nil .nil
        (some (.innerH 1 2 3 (.raw (List.replicate 32 0)) (.raw (List.replicate 32 9)))))
      (by decide)).2 (by decide) (by decide)⟩⟩

/-- Store lookup after a put. -/
theorem ndbGet_put (s : NDB) (h : HashB) (n : Node) (h' : HashB) :
    ndbGet (ndbPut s h n) h' = if h = h' then some n else ndbGet s h' := by
  induction s with
  | nil =>
    unfold ndbPut ndbGet
    split <;> rfl
  | cons p rest ih =>
    obtain ⟨h1, m⟩ := p
    unfold ndbPut
    by_cases h1h : h1 = h
    · subst h1h
      rw [if_pos rfl]
      unfold ndbGet
      by_cases hq : h1 = h' <;> simp [hq]
    · rw [if_neg h1h]
      unfold ndbGet
      by_cases h1h' : h1 = h'
      · subst h1h'
        rw [if_pos rfl, if_pos rfl, if_neg (fun hc => h1h hc.symm)]
      · rw [if_neg h1h', if_neg h1h', ih]

/-- Re-putting an entry the store already holds is the identity. -/
theorem ndbPut_self (s : NDB) (h : HashB) (n : Node)
    (hg : ndbGet s h = some n) : ndbPut s h n = s := by
  induction s with
  | nil => simp [ndbGet] at hg
  | cons p rest ih =>
    obtain ⟨h1, m⟩ := p
    unfold ndbGet at hg
    unfold ndbPut
    by_cases h1h : h1 = h
    · subst h1h
      rw [if_pos rfl] at hg ⊢
      obtain rfl : m = n := by simpa using hg
      rfl
    · rw [if_neg h1h] at hg ⊢
      rw [ih hg]

/-- A put never erases presence. -/
theorem hasH_put (s : NDB) (h : HashB) (n : Node) (h' : HashB)
    (hh : hasH s h' = true) : hasH (ndbPut s h n) h' = true := by
  unfold hasH at hh ⊢
  rw [ndbGet_put]
  split <;> simp_all

/-- A successfully parsed leaf is the canonical node of its hash. -/
theorem fromLeafOp_canon (pre k v : Bytes) (L : Node)
    (hok : fromLeafOp pre k v = .ok L) :
    ∃ hL, L.hashf = some hL ∧ canonOfLeafHash hL = some L := by
  unfold fromLeafOp at hok
  split at hok
  · simp at hok
  · split at hok
    · simp at hok
    · split at hok
      · simp at hok
      · split at hok
        · simp at hok
        · split at hok
          · simp at hok
          · simp only [underscoreHash, Node.hashf, computeHash] at hok
            simp at hok
            exact ⟨.leafH _ _ k v, by rw [← hok]; rfl, by rw [← hok]; rfl⟩

/-- The inner-op loop only performs `has`-guarded writes, so it preserves
every existing store entry pointwise. -/
theorem addEPLoop_preserves (ops : List (Bytes × Bytes)) (ph : Option HashB)
    (s : NDB) (h : HashB) (n : Node) (hg : ndbGet s h = some n) :
    ndbGet (addEPLoop s ph ops).1 h = some n := by
  induction ops generalizing ph s with
  | nil => simpa [addEPLoop] using hg
  | cons op rest ih =>
    obtain ⟨pre, suf⟩ := op
    unfold addEPLoop
    rcases hio : fromInnerOp pre suf ph with e | inner
    · simpa using hg
    · dsimp only
      by_cases hhas : ndbHasNode s inner = true
      · rw [if_pos hhas]
        exact ih _ _ hg
      · rw [if_neg hhas]
        apply ih
        unfold ndbSave
        rcases hif : inner.hashf with _ | hi
        · exact hg
        · rw [ndbGet_put]
          split
          · rename_i hEq
            exfalso
            unfold ndbHasNode at hhas
            rw [hif] at hhas
            rw [← hEq] at hg
            simp [hg] at hhas
          · exact hg

/-- Rerunning the inner-op loop against a store that already has every
hash the original run ends up with is the identity on the store and
returns the same error. -/
theorem addEPLoop_absorb (ops : List (Bytes × Bytes)) (ph : Option HashB)
    (s t : NDB)
    (hpres : ∀ h, hasH (addEPLoop s ph ops).1 h = true → hasH t h = true) :
    addEPLoop t ph ops = (t, (addEPLoop s ph ops).2) := by
  induction ops generalizing ph s t with
  | nil => rfl
  | cons op rest ih =>
    obtain ⟨pre, suf⟩ := op
    unfold addEPLoop at hpres ⊢
    rcases hio : fromInnerOp pre suf ph with e | inner
    · rfl
    · rw [hio] at hpres
      dsimp only at hpres ⊢
      rcases hif : inner.hashf with _ | hi
      all_goals rw [hif] at hpres
      · have hsv : ∀ u : NDB, ndbSave u inner = u := by
          intro u
          unfold ndbSave
          rw [hif]
        have hhn : ∀ u : NDB, ndbHasNode u inner = false := by
          intro u
          unfold ndbHasNode
          rw [hif]
        simp only [hhn, hsv, Bool.false_eq_true, if_false] at hpres ⊢
        exact ih _ _ _ hpres
      · by_cases hhs : ndbHasNode s inner = true
        · rw [if_pos hhs] at hpres ⊢
          have hw : ∃ w, ndbGet s hi = some w := by
            unfold ndbHasNode at hhs
            rw [hif] at hhs
            exact Option.isSome_iff_exists.mp hhs
          obtain ⟨w, hw⟩ := hw
          have hpt : hasH t hi = true := by
            refine hpres hi ?_
            unfold hasH
            rw [addEPLoop_preserves rest (some hi) s hi w hw]
            rfl
          have hht : ndbHasNode t inner = true := by
            unfold ndbHasNode
            rw [hif]
            unfold hasH at hpt
            exact hpt
          rw [if_pos hht]
          exact ih _ _ _ hpres
        · rw [if_neg hhs] at hpres ⊢
          have hsv : ndbSave s inner = ndbPut s hi inner := by
            unfold ndbSave
            rw [hif]
          rw [hsv] at hpres ⊢
          have hgot : ndbGet (ndbPut s hi inner) hi = some inner := by
            rw [ndbGet_put]
            simp
          have hpt : hasH t hi = true := by
            refine hpres hi ?_
            unfold hasH
            rw [addEPLoop_preserves rest (some hi) _ hi inner hgot]
            rfl
          have hht : ndbHasNode t inner = true := by
            unfold ndbHasNode
            rw [hif]
            unfold hasH at hpt
            exact hpt
          rw [if_pos hht]
          exact ih _ _ _ hpres

/-- Ingesting one proof preserves every canonically-stored leaf entry
pointwise (the only unguarded write is the leaf save, and leaves with the
same hash are the same canonical node). -/
theorem addExistenceProof_canon_pres (p : ExistProof) (s : NDB) (h : HashB)
    (n : Node) (hg : ndbGet s h = some n) (hcan : canonOfLeafHash h = some n) :
    ndbGet (addExistenceProof s p).1 h = some n := by
  unfold addExistenceProof
  rcases hlp : fromLeafOp p.leafPre p.key p.value with e | leaf
  · exact hg
  · dsimp only
    apply addEPLoop_preserves
    obtain ⟨hL, hhf, hcanL⟩ := fromLeafOp_canon _ _ _ _ hlp
    unfold ndbSave
    rw [hhf, ndbGet_put]
    split
    · rename_i hEq
      rw [← hEq] at hcan
      rw [hcanL] at hcan
      exact hcan
    · exact hg

/-- Ingesting one proof never erases presence of a hash. -/
theorem addExistenceProof_mono (p : ExistProof) (s : NDB) (h : HashB)
    (hh : hasH s h = true) : hasH (addExistenceProof s p).1 h = true := by
  unfold addExistenceProof
  rcases hlp : fromLeafOp p.leafPre p.key p.value with e | leaf
  · exact hh
  · dsimp only
    have hsv : hasH (ndbSave s leaf) h = true := by
      unfold ndbSave
      rcases hif : leaf.hashf with _ | hL
      · exact hh
      · exact hasH_put s hL leaf h hh
    unfold hasH at hsv ⊢
    obtain ⟨w, hw⟩ := Option.isSome_iff_exists.mp hsv
    rw [addEPLoop_preserves _ _ _ _ _ hw]
    rfl

/-- Rerunning one proof against a store that keeps the run's presence
marks and canonical leaf entries is the identity on the store, with the
same (parse-determined) error. -/
theorem addExistenceProof_absorb (p : ExistProof) (s t : NDB)
    (hpres : ∀ h, hasH (addExistenceProof s p).1 h = true → hasH t h = true)
    (hcanon : ∀ h n, ndbGet (addExistenceProof s p).1 h = some n →
        canonOfLeafHash h = some n → ndbGet t h = some n) :
    addExistenceProof t p = (t, (addExistenceProof s p).2) := by
  unfold addExistenceProof at hpres hcanon ⊢
  rcases hlp : fromLeafOp p.leafPre p.key p.value with e | leaf
  · rfl
  · rw [hlp] at hpres hcanon
    dsimp only at hpres hcanon ⊢
    obtain ⟨hL, hhf, hcanL⟩ := fromLeafOp_canon _ _ _ _ hlp
    have hs1 : ndbGet (ndbSave s leaf) hL = some leaf := by
      unfold ndbSave
      rw [hhf, ndbGet_put]
      simp
    have hfin : ndbGet (addEPLoop (ndbSave s leaf) leaf.hashf p.path).1 hL = some leaf :=
      addEPLoop_preserves _ _ _ _ _ hs1
    have htl : ndbGet t hL = some leaf := hcanon hL leaf hfin hcanL
    have hsavet : ndbSave t leaf = t := by
      unfold ndbSave
      rw [hhf]
      exact ndbPut_self t hL leaf htl
    rw [hsavet]
    exact addEPLoop_absorb p.path leaf.hashf (ndbSave s leaf) t hpres

/-- Ingesting a list of proofs never erases presence of a hash. -/
theorem addExistenceProofs_mono (ps : List ExistProof) (s : NDB) (h : HashB)
    (hh : hasH s h = true) : hasH (addExistenceProofs s ps).1 h = true := by
  induction ps generalizing s with
  | nil => exact hh
  | cons p rest ih =>
    unfold addExistenceProofs
    rcases hep : addExistenceProof s p with ⟨s1, e?⟩
    have h1 : hasH s1 h = true := by
      have hm := addExistenceProof_mono p s h hh
      rw [hep] at hm
      exact hm
    rcases e? with _ | e
    · exact ih s1 h1
    · exact h1

/-- Ingesting a list of proofs preserves canonically-stored leaf entries
pointwise. -/
theorem addExistenceProofs_canon_pres (ps : List ExistProof) (s : NDB)
    (h : HashB) (n : Node) (hg : ndbGet s h = some n)
    (hcan : canonOfLeafHash h = some n) :
    ndbGet (addExistenceProofs s ps).1 h = some n := by
  induction ps generalizing s with
  | nil => exact hg
  | cons p rest ih =>
    unfold addExistenceProofs
    rcases hep : addExistenceProof s p with ⟨s1, e?⟩
    have h1 : ndbGet s1 h = some n := by
      have hm := addExistenceProof_canon_pres p s h n hg hcan
      rw [hep] at hm
      exact hm
    rcases e? with _ | e
    · exact ih s1 h1
    · exact h1

/-- Rerunning a list of proofs against a store that keeps the first
run's presence marks and canonical leaf entries is the identity on the
store, with the same error. -/
theorem addExistenceProofs_absorb (ps : List ExistProof) (s t : NDB)
    (hpres : ∀ h, hasH (addExistenceProofs s ps).1 h = true → hasH t h = true)
    (hcanon : ∀ h n, ndbGet (addExistenceProofs s ps).1 h = some n →
        canonOfLeafHash h = some n → ndbGet t h = some n) :
    addExistenceProofs t ps = (t, (addExistenceProofs s ps).2) := by
  induction ps generalizing s t with
  | nil => rfl
  | cons p rest ih =>
    unfold addExistenceProofs at hpres hcanon ⊢
    rcases hep : addExistenceProof s p with ⟨s1, e?⟩
    rw [hep] at hpres hcanon
    rcases e? with _ | e
    · dsimp only at hpres hcanon ⊢
      have hp1 : ∀ h, hasH s1 h = true → hasH t h = true := by
        intro h hh
        exact hpres h (addExistenceProofs_mono rest s1 h hh)
      have hc1 : ∀ h n, ndbGet s1 h = some n → canonOfLeafHash h = some n →
          ndbGet t h = some n := by
        intro h n hgn hcn
        exact hcanon h n (addExistenceProofs_canon_pres rest s1 h n hgn hcn) hcn
      have hpres' : ∀ h, hasH (addExistenceProof s p).1 h = true → hasH t h = true := by
        intro h hh
        rw [hep] at hh
        exact hp1 h hh
      have hcanon' : ∀ h n, ndbGet (addExistenceProof s p).1 h = some n →
          canonOfLeafHash h = some n → ndbGet t h = some n := by
        intro h n hgn hcn
        rw [hep] at hgn
        exact hc1 h n hgn hcn
      have h8 := addExistenceProof_absorb p s t hpres' hcanon'
      rw [hep] at h8
      rw [h8]
      exact ih s1 t hpres hcanon
    · dsimp only at hpres hcanon ⊢
      have hpres' : ∀ h, hasH (addExistenceProof s p).1 h = true → hasH t h = true := by
        intro h hh
        rw [hep] at hh
        exact hpres h hh
      have hcanon' : ∀ h n, ndbGet (addExistenceProof s p).1 h = some n →
          canonOfLeafHash h = some n → ndbGet t h = some n := by
        intro h n hgn hcn
        rw [hep] at hgn
        exact hcanon h n hgn hcn
      have h8 := addExistenceProof_absorb p s t hpres' hcanon'
      rw [hep] at h8
      rw [h8]

/-- Claim C9: applying the proof-ingestion operation twice in a row with
the same list of existence proofs leaves the node store exactly in the
state reached after the first application — the second run adds no node
and changes no stored node. -/
theorem addExistenceProofs_idem (ps : List ExistProof) (s : NDB) :
    (addExistenceProofs (addExistenceProofs s ps).1 ps).1 =
      (addExistenceProofs s ps).1 := by
  have habs := addExistenceProofs_absorb ps s (addExistenceProofs s ps).1
    (fun _ hh => hh) (fun _ _ hg _ => hg)
  rw [habs]

end IavlDst
